import Mathlib

set_option linter.dupNamespace false

/-!
Verification of the circuit evaluation engine of `codotaku_logic`
(`src/main.rs`): the node data model, the demand-driven recursive
evaluator `Graph::eval` with its per-tick memo cache, and the tick
refresh `Graph::tick`.

The Rust evaluator is partial: it recurses through the graph with no
in-progress guard, so on a feedback cycle it never terminates.  We
embed it with an explicit fuel parameter: `eval fuel …` unfolds the
recursion at most `fuel` levels deep and answers `.error .outOfFuel`
when the recursion is deeper than `fuel`.  The behaviour of the Rust
function on a given input is then:
  * it returns `v` iff `eval fuel … = .ok (v, _)` for some fuel
    (fuel-monotonicity makes this well defined), and
  * it diverges (infinite recursion) iff `eval fuel … = .error .outOfFuel`
    for every fuel.
The `unreachable!` panic on an `Output` source (and the `.unwrap()`
panic on a dangling node id) is embedded as `.error .panic`.
-/

namespace CodotakuLogic

/-- The node variants of the Rust `enum Node`.  Every Rust variant carries a
`bool` payload (only `Input`/`Output` payloads are ever read by the engine;
the rest are dead state, see claim C8). -/
inductive Node where
  | Input : Bool → Node
  | Output : Bool → Node
  | Nand : Bool → Node
  | Clock : Bool → Node
  | Node : Bool → Node
  | Not : Bool → Node
  | And : Bool → Node
  | Or : Bool → Node
  | Xor : Bool → Node
  | Nor : Bool → Node
  | Xnor : Bool → Node
deriving DecidableEq, Repr

/-- Rust `InPinId { node, input }`: the identity of an input pin.  Node ids
are the `egui_snarl` node handles, embedded as naturals. -/
structure InPinId where
  node : Nat
  input : Nat
deriving DecidableEq, Repr

/-- The graph state (`Snarl<Node>`): the nodes by id, the list of node ids
present (`node_ids()`), and for each input pin the list of source node ids
feeding it (`in_pin(p).remotes`, each remote's `.node`; the source's output
index is never read by the engine since every node has at most one output). -/
structure Graph where
  nodes : Nat → Option Node
  nodeIds : List Nat
  remotes : InPinId → List Nat

/-- The per-refresh memo cache `HashMap<(InPinId, u64), bool>`, embedded as an
association list where insertion prepends (lookup finds the most recent
binding, matching `HashMap::insert`'s overwrite). -/
def Cache := List ((InPinId × Nat) × Bool)

instance : DecidableEq Cache := fun a b => List.hasDecEq a b

def Cache.lookup : Cache → InPinId × Nat → Option Bool
  | [], _ => none
  | (k, v) :: rest, k' => if k = k' then some v else Cache.lookup rest k'

def Cache.insert (c : Cache) (k : InPinId × Nat) (v : Bool) : Cache :=
  (k, v) :: c

/-- How an `eval` call can fail to produce a value: `outOfFuel` embeds
divergence of the unguarded Rust recursion, `panic` embeds the
`unreachable!` on an `Output` source and the `.unwrap()` on a missing
node. -/
inductive Err where
  | outOfFuel : Err
  | panic : Err
deriving DecidableEq, Repr

/-- The per-remote closure body of `Graph::eval`:
`match self.state.get_node(remote.node).unwrap()` dispatching on the source
node's variant.  `ev` is the recursive evaluator the closure captures
(`self.eval` at the current tick, on the shared cache). -/
def evalSourceA (g : Graph)
    (ev : InPinId → Cache → Except Err (Bool × Cache))
    (t : Nat) (s : Nat) (c : Cache) : Except Err (Bool × Cache) :=
  match g.nodes s with
  | none => .error .panic
  | some (.Input v) => .ok (v, c)
  | some (.Output _) => .error .panic
  | some (.Clock _) => .ok (decide (t % 2 = 0), c)
  | some (.Node _) => ev ⟨s, 0⟩ c
  | some (.Not _) =>
    match ev ⟨s, 0⟩ c with
    | .error e => .error e
    | .ok (a, c1) => .ok (!a, c1)
  | some (.Nand _) =>
    match ev ⟨s, 0⟩ c with
    | .error e => .error e
    | .ok (a, c1) =>
      match ev ⟨s, 1⟩ c1 with
      | .error e => .error e
      | .ok (b, c2) => .ok (!(a && b), c2)
  | some (.And _) =>
    match ev ⟨s, 0⟩ c with
    | .error e => .error e
    | .ok (a, c1) =>
      match ev ⟨s, 1⟩ c1 with
      | .error e => .error e
      | .ok (b, c2) => .ok (a && b, c2)
  | some (.Or _) =>
    match ev ⟨s, 0⟩ c with
    | .error e => .error e
    | .ok (a, c1) =>
      match ev ⟨s, 1⟩ c1 with
      | .error e => .error e
      | .ok (b, c2) => .ok (a || b, c2)
  | some (.Xor _) =>
    match ev ⟨s, 0⟩ c with
    | .error e => .error e
    | .ok (a, c1) =>
      match ev ⟨s, 1⟩ c1 with
      | .error e => .error e
      | .ok (b, c2) => .ok (xor a b, c2)
  | some (.Nor _) =>
    match ev ⟨s, 0⟩ c with
    | .error e => .error e
    | .ok (a, c1) =>
      match ev ⟨s, 1⟩ c1 with
      | .error e => .error e
      | .ok (b, c2) => .ok (!(a || b), c2)
  | some (.Xnor _) =>
    match ev ⟨s, 0⟩ c with
    | .error e => .error e
    | .ok (a, c1) =>
      match ev ⟨s, 1⟩ c1 with
      | .error e => .error e
      | .ok (b, c2) => .ok (!(xor a b), c2)

/-- The `self.state.in_pin(in_pin).remotes.iter().any(…)` fold: evaluate the
sources left to right, stopping at the first `true` (Rust's `any`
short-circuits); the empty list yields `false`. -/
def evalRemotesA (g : Graph)
    (ev : InPinId → Cache → Except Err (Bool × Cache))
    (t : Nat) : List Nat → Cache → Except Err (Bool × Cache)
  | [], c => .ok (false, c)
  | s :: rest, c =>
    match evalSourceA g ev t s c with
    | .error e => .error e
    | .ok (true, c1) => .ok (true, c1)
    | .ok (false, c1) => evalRemotesA g ev t rest c1

/-- `Graph::eval(in_pin, ticks, cache)`: check the memo, otherwise fold the
pin's remotes with short-circuiting `Iterator::any`, then memoize.  `fuel`
bounds the recursion depth (see the module comment). -/
def eval (g : Graph) : Nat → Nat → InPinId → Cache → Except Err (Bool × Cache)
  | 0, _, _, _ => .error .outOfFuel
  | fuel + 1, t, p, c =>
    match c.lookup (p, t) with
    | some v => .ok (v, c)
    | none =>
      match evalRemotesA g (fun p' c' => eval g fuel t p' c') t (g.remotes p) c with
      | .error e => .error e
      | .ok (r, c1) => .ok (r, c1.insert (p, t) r)

/-- `evalSourceA` with the recursive evaluator at a given fuel plugged in. -/
def evalSource (g : Graph) (fuel t : Nat) (s : Nat) (c : Cache) :
    Except Err (Bool × Cache) :=
  evalSourceA g (fun p' c' => eval g fuel t p' c') t s c

/-- `evalRemotesA` with the recursive evaluator at a given fuel plugged in. -/
def evalRemotes (g : Graph) (fuel t : Nat) (l : List Nat) (c : Cache) :
    Except Err (Bool × Cache) :=
  evalRemotesA g (fun p' c' => eval g fuel t p' c') t l c

/-- Replace the node stored at id `id` (the `get_node_mut` write in
`Graph::tick`); structure (`nodeIds`, `remotes`) is untouched. -/
def Graph.setNode (g : Graph) (id : Nat) (nd : Node) : Graph :=
  { g with nodes := fun n => if n = id then some nd else g.nodes n }

/-- Is this node an `Output`? (the `filter_map` in `Graph::tick`). -/
def Node.isOutput : CodotakuLogic.Node → Bool
  | .Output _ => true
  | _ => false

/-- The ids of the `Output` nodes, as collected by `Graph::tick`. -/
def Graph.outputIds (g : Graph) : List Nat :=
  g.nodeIds.filter fun id =>
    match g.nodes id with
    | some nd => nd.isOutput
    | none => false

/-- The refresh loop of `Graph::tick`: for each collected `Output` id, in
order, evaluate its input pin 0 at the current tick (sharing one cache
across the whole refresh) and write the result into the node's payload.
`none` embeds a refresh whose evaluation diverges. -/
def refresh (fuel t : Nat) : Graph → List Nat → Cache → Option Graph
  | g, [], _ => some g
  | g, id :: rest, c =>
    match eval g fuel t ⟨id, 0⟩ c with
    | .error _ => none
    | .ok (v, c') =>
      let g' := match g.nodes id with
        | some (.Output _) => g.setNode id (.Output v)
        | _ => g
      refresh fuel t g' rest c'

/-- `Graph::tick(simulation, dt)` after the timer bookkeeping: `fire` embeds
the condition `dt == Duration::ZERO || simulation.timer.finished()` (a manual
Step passes `Duration::ZERO`; the repeating timer finishing makes
`finished()` true).  On fire: increment the tick counter, collect the
`Output` ids, allocate a fresh empty cache, run the refresh. -/
def Graph.tick (g : Graph) (ticks : Nat) (fire : Bool) (fuel : Nat) :
    Option (Graph × Nat) :=
  if fire then
    let t := ticks + 1
    match refresh fuel t g g.outputIds [] with
    | none => none
    | some g' => some (g', t)
  else
    some (g, ticks)

/-!
## Specification-side substitution semantics

`subst` is the meaning the spec ascribes to an input pin of an *acyclic*
circuit (§8, first bullet): substitute each `Input`'s payload through the
boolean expression implied by the gate tree — `Input` → payload, `Clock` →
`T % 2 == 0`, buffer → identity, `Not` → negation, binary gates → the
corresponding operator — and OR together all sources of a pin (fan-in
rule).  It carries no cache; `none` means the fuel did not cover the
expression depth (or an `Output`/dangling source was hit).
-/

/-- Spec-side value of a single source node, with the recursive pin
semantics `sb` passed in. -/
def substSourceA (g : Graph) (sb : InPinId → Option Bool) (t : Nat)
    (s : Nat) : Option Bool :=
  match g.nodes s with
  | none => none
  | some (.Input v) => some v
  | some (.Output _) => none
  | some (.Clock _) => some (decide (t % 2 = 0))
  | some (.Node _) => sb ⟨s, 0⟩
  | some (.Not _) =>
    match sb ⟨s, 0⟩ with
    | some a => some (!a)
    | none => none
  | some (.Nand _) =>
    match sb ⟨s, 0⟩, sb ⟨s, 1⟩ with
    | some a, some b => some (!(a && b))
    | _, _ => none
  | some (.And _) =>
    match sb ⟨s, 0⟩, sb ⟨s, 1⟩ with
    | some a, some b => some (a && b)
    | _, _ => none
  | some (.Or _) =>
    match sb ⟨s, 0⟩, sb ⟨s, 1⟩ with
    | some a, some b => some (a || b)
    | _, _ => none
  | some (.Xor _) =>
    match sb ⟨s, 0⟩, sb ⟨s, 1⟩ with
    | some a, some b => some (xor a b)
    | _, _ => none
  | some (.Nor _) =>
    match sb ⟨s, 0⟩, sb ⟨s, 1⟩ with
    | some a, some b => some (!(a || b))
    | _, _ => none
  | some (.Xnor _) =>
    match sb ⟨s, 0⟩, sb ⟨s, 1⟩ with
    | some a, some b => some (!(xor a b))
    | _, _ => none

/-- Spec-side OR over a source list (total OR, no short-circuit), with the
recursive pin semantics `sb` passed in. -/
def substListA (g : Graph) (sb : InPinId → Option Bool) (t : Nat) :
    List Nat → Option Bool
  | [] => some false
  | s :: rest =>
    match substSourceA g sb t s, substListA g sb t rest with
    | some a, some b => some (a || b)
    | _, _ => none

/-- Spec-side value of an input pin: the OR of its sources' values. -/
def subst (g : Graph) : Nat → Nat → InPinId → Option Bool
  | 0, _, _ => none
  | fuel + 1, t, p => substListA g (fun p' => subst g fuel t p') t (g.remotes p)

/-- `substSourceA` with the recursive semantics at a given fuel plugged in. -/
def substSource (g : Graph) (fuel t : Nat) (s : Nat) : Option Bool :=
  substSourceA g (fun p' => subst g fuel t p') t s

/-- `substListA` with the recursive semantics at a given fuel plugged in. -/
def substList (g : Graph) (fuel t : Nat) (l : List Nat) : Option Bool :=
  substListA g (fun p' => subst g fuel t p') t l

/-!
## Well-formedness and acyclicity
-/

/-- Every source referenced by some pin exists and is not an `Output`
(the structural invariant §3: `Output` nodes are never a connection
source, and connections reference live nodes). -/
def Wf (g : Graph) : Prop :=
  ∀ p s, s ∈ g.remotes p → ∃ nd, g.nodes s = some nd ∧ nd.isOutput = false

/-- `r` witnesses acyclicity: every connection strictly decreases the rank
from the target pin's node to the source node. -/
def Ranked (g : Graph) (r : Nat → Nat) : Prop :=
  ∀ p s, s ∈ g.remotes p → r s < r p.node

/-- Every cached value agrees with the substitution semantics (at the
entry's own tick). -/
def CacheOK (g : Graph) (c : Cache) : Prop :=
  ∀ p t b, Cache.lookup c (p, t) = some b → ∃ f, subst g f t p = some b

instance {ε α : Type} [DecidableEq ε] [DecidableEq α] : DecidableEq (Except ε α)
  | .error a, .error b =>
    if h : a = b then .isTrue (by rw [h])
    else .isFalse (by simp [h])
  | .error _, .ok _ => .isFalse (by simp)
  | .ok _, .error _ => .isFalse (by simp)
  | .ok a, .ok b =>
    if h : a = b then .isTrue (by rw [h])
    else .isFalse (by simp [h])

/-- The value `Graph::eval` computes from a fresh cache, forgetting the
cache it returns. -/
def evalV (g : Graph) (fuel t : Nat) (p : InPinId) : Except Err Bool :=
  match eval g fuel t p [] with
  | .error e => .error e
  | .ok (v, _) => .ok v

/-!
## Concrete circuits
-/

/-- `Nand(Input(true), Input(false))` wired to an `Output` (the spec §8
example): node 0 = `Input true`, node 1 = `Input false`, node 2 = `Nand`,
node 3 = `Output`. -/
def gNand : Graph where
  nodes n :=
    if n = 0 then some (.Input true)
    else if n = 1 then some (.Input false)
    else if n = 2 then some (.Nand false)
    else if n = 3 then some (.Output false)
    else none
  nodeIds := [0, 1, 2, 3]
  remotes p :=
    if p = ⟨2, 0⟩ then [0]
    else if p = ⟨2, 1⟩ then [1]
    else if p = ⟨3, 0⟩ then [2]
    else []

/-- A `Nand` whose output is wired back into its own first input pin: the
smallest feedback cycle.  Node 0 = `Nand`, pin ⟨0,0⟩ fed by node 0 itself,
pin ⟨0,1⟩ undriven. -/
def gSelfLoop : Graph where
  nodes n := if n = 0 then some (.Nand false) else none
  nodeIds := [0]
  remotes p := if p = ⟨0, 0⟩ then [0] else []

/-- The cross-coupled `Nand` pair (SR latch): node 0 = `Input S`, node 1 =
`Input R`, node 2 = `Nand_A` (inputs S and `Nand_B`), node 3 = `Nand_B`
(inputs R and `Nand_A`), node 4 = `Output` reading `Nand_A`. -/
def gSR (S R : Bool) : Graph where
  nodes n :=
    if n = 0 then some (.Input S)
    else if n = 1 then some (.Input R)
    else if n = 2 then some (.Nand false)
    else if n = 3 then some (.Nand false)
    else if n = 4 then some (.Output false)
    else none
  nodeIds := [0, 1, 2, 3, 4]
  remotes p :=
    if p = ⟨2, 0⟩ then [0]
    else if p = ⟨2, 1⟩ then [3]
    else if p = ⟨3, 0⟩ then [1]
    else if p = ⟨3, 1⟩ then [2]
    else if p = ⟨4, 0⟩ then [2]
    else []

/-- Two `Input` nodes (payloads true and false) fanned into the single
input pin of a buffer `Node`: node 0 = `Input true`, node 1 =
`Input false`, node 2 = buffer. -/
def gFanIn : Graph where
  nodes n :=
    if n = 0 then some (.Input true)
    else if n = 1 then some (.Input false)
    else if n = 2 then some (.Node false)
    else none
  nodeIds := [0, 1, 2]
  remotes p := if p = ⟨2, 0⟩ then [0, 1] else []

/-- A `Clock` feeding a buffer `Node`: node 0 = `Clock`, node 1 = buffer. -/
def gClock : Graph where
  nodes n :=
    if n = 0 then some (.Clock false)
    else if n = 1 then some (.Node false)
    else none
  nodeIds := [0, 1]
  remotes p := if p = ⟨1, 0⟩ then [0] else []

/-- An `Output` node wired (in violation of the invariant) as the sole
source of a buffer's input pin: node 0 = `Output`, node 1 = buffer. -/
def gOutFirst : Graph where
  nodes n :=
    if n = 0 then some (.Output false)
    else if n = 1 then some (.Node false)
    else none
  nodeIds := [0, 1]
  remotes p := if p = ⟨1, 0⟩ then [0] else []

/-- An `Output` node wired as a source *after* an `Input true` on the same
pin: node 0 = `Input true`, node 1 = `Output`, node 2 = buffer with
remotes `[0, 1]`. -/
def gOutSecond : Graph where
  nodes n :=
    if n = 0 then some (.Input true)
    else if n = 1 then some (.Output false)
    else if n = 2 then some (.Node false)
    else none
  nodeIds := [0, 1, 2]
  remotes p := if p = ⟨2, 0⟩ then [0, 1] else []

example : evalV gNand 5 0 ⟨3, 0⟩ = .ok true := by decide
example : evalV gFanIn 5 0 ⟨2, 0⟩ = .ok true := by decide
example : evalV gClock 5 0 ⟨1, 0⟩ = .ok true := by decide
example : evalV gClock 5 1 ⟨1, 0⟩ = .ok false := by decide
example : evalV gOutFirst 5 0 ⟨1, 0⟩ = .error .panic := by decide
example : evalV gOutSecond 5 0 ⟨2, 0⟩ = .ok true := by decide
set_option maxRecDepth 10000

example : evalV gSelfLoop 50 0 ⟨0, 0⟩ = .error .outOfFuel := by decide
example : evalV (gSR true true) 60 0 ⟨4, 0⟩ = .error .outOfFuel := by decide
example : ((gSR true false).tick 0 true 60).isNone = true := by decide

/-!
## Cache lemmas
-/

theorem Cache.lookup_insert (c : Cache) (k k' : InPinId × Nat) (v : Bool) :
    (c.insert k v).lookup k' = if k = k' then some v else c.lookup k' := rfl

theorem Cache.lookup_insert_self (c : Cache) (k : InPinId × Nat) (v : Bool) :
    (c.insert k v).lookup k = some v := by
  simp [Cache.lookup_insert]

/-!
## Fuel monotonicity of the substitution semantics
-/

theorem substSourceA_mono {g : Graph} {sb sb' : InPinId → Option Bool}
    {t s : Nat} (h : ∀ p v, sb p = some v → sb' p = some v) {v : Bool}
    (hs : substSourceA g sb t s = some v) :
    substSourceA g sb' t s = some v := by
  unfold substSourceA at hs ⊢
  cases hnd : g.nodes s <;> rw [hnd] at hs
  case none => exact absurd hs (by simp)
  case some nd =>
    cases nd
    case Input b => exact hs
    case Output b => exact absurd hs (by simp)
    case Clock b => exact hs
    case Node b => exact h _ _ hs
    case Not b =>
      cases h0 : sb ⟨s, 0⟩ <;> rw [h0] at hs
      · exact absurd hs (by simp)
      · rw [h _ _ h0]; exact hs
    all_goals
      cases h0 : sb ⟨s, 0⟩ <;> rw [h0] at hs
      · exact absurd hs (by simp)
      · cases h1 : sb ⟨s, 1⟩ <;> rw [h1] at hs
        · exact absurd hs (by simp)
        · rw [h _ _ h0, h _ _ h1]; exact hs

theorem substListA_mono {g : Graph} {sb sb' : InPinId → Option Bool}
    {t : Nat} (h : ∀ p v, sb p = some v → sb' p = some v) {l : List Nat}
    {v : Bool} (hs : substListA g sb t l = some v) :
    substListA g sb' t l = some v := by
  induction l generalizing v with
  | nil => exact hs
  | cons s rest ih =>
    unfold substListA at hs ⊢
    cases h0 : substSourceA g sb t s <;> rw [h0] at hs
    · exact absurd hs (by simp)
    · cases h1 : substListA g sb t rest <;> rw [h1] at hs
      · exact absurd hs (by simp)
      · rw [substSourceA_mono h h0, ih h1]; exact hs

theorem subst_mono {g : Graph} {fuel t : Nat} {p : InPinId} {v : Bool}
    (hs : subst g fuel t p = some v) : subst g (fuel + 1) t p = some v := by
  induction fuel generalizing p v with
  | zero => exact absurd hs (by simp [subst])
  | succ fuel ih =>
    unfold subst at hs ⊢
    exact substListA_mono (fun q w hw => ih hw) hs

theorem subst_mono_le {g : Graph} {fuel fuel' t : Nat} {p : InPinId}
    {v : Bool} (hle : fuel ≤ fuel') (hs : subst g fuel t p = some v) :
    subst g fuel' t p = some v := by
  induction hle with
  | refl => exact hs
  | step _ ih => exact subst_mono ih

/-- The substitution semantics is deterministic across fuels. -/
theorem subst_agree {g : Graph} {f1 f2 t : Nat} {p : InPinId} {v w : Bool}
    (h1 : subst g f1 t p = some v) (h2 : subst g f2 t p = some w) : v = w := by
  rcases Nat.le_total f1 f2 with h | h
  · have := subst_mono_le h h1
    rw [this] at h2; exact Option.some_injective _ h2
  · have := subst_mono_le h h2
    rw [this] at h1; exact (Option.some_injective _ h1).symm

/-!
## Divergence of the unguarded evaluator on feedback cycles

`Graph::eval` memoizes a pin only *after* its computation resolves, and has
no in-progress marker: re-entering a pin that is still being computed
misses the cache and recurses again.  On a feedback cycle the recursion
never bottoms out: `eval` runs out of every finite fuel.
-/

theorem selfLoop_diverge_aux (t : Nat) (c : Cache)
    (h : c.lookup (⟨0, 0⟩, t) = none) :
    ∀ fuel, eval gSelfLoop fuel t ⟨0, 0⟩ c = .error .outOfFuel := by
  intro fuel
  induction fuel with
  | zero => rfl
  | succ fuel ih =>
    simp only [eval, h]
    have hrem : gSelfLoop.remotes ⟨0, 0⟩ = [0] := rfl
    have hnd : gSelfLoop.nodes 0 = some (.Nand false) := rfl
    rw [hrem]
    simp only [evalRemotesA, evalSourceA, hnd, ih]

/-- Re-entering the cross-coupled pins of the SR latch diverges: from any
cache not yet holding pins `⟨2,1⟩` (Nand_A's feedback input) and `⟨3,1⟩`
(Nand_B's feedback input) at tick `t`, their evaluation exhausts every
fuel. -/
theorem sr_diverge_pair (S R : Bool) (t : Nat) :
    ∀ fuel (c : Cache), c.lookup (⟨2, 1⟩, t) = none →
      c.lookup (⟨3, 1⟩, t) = none →
      eval (gSR S R) fuel t ⟨2, 1⟩ c = .error .outOfFuel ∧
      eval (gSR S R) fuel t ⟨3, 1⟩ c = .error .outOfFuel := by
  intro fuel
  induction fuel with
  | zero => exact fun c _ _ => ⟨rfl, rfl⟩
  | succ fuel ih =>
    intro c h21 h31
    have hrem21 : (gSR S R).remotes ⟨2, 1⟩ = [3] := rfl
    have hrem31 : (gSR S R).remotes ⟨3, 1⟩ = [2] := rfl
    have hrem30 : (gSR S R).remotes ⟨3, 0⟩ = [1] := rfl
    have hrem20 : (gSR S R).remotes ⟨2, 0⟩ = [0] := rfl
    have hnd2 : (gSR S R).nodes 2 = some (.Nand false) := rfl
    have hnd3 : (gSR S R).nodes 3 = some (.Nand false) := rfl
    have hnd1 : (gSR S R).nodes 1 = some (.Input R) := rfl
    have hnd0 : (gSR S R).nodes 0 = some (.Input S) := rfl
    constructor
    · -- pin ⟨2,1⟩: its only source is Nand_B (node 3)
      simp only [eval, h21, hrem21, evalRemotesA, evalSourceA, hnd3]
      -- first operand: eval of ⟨3,0⟩ (fed by Input R)
      cases fuel with
      | zero => rfl
      | succ m =>
        -- eval (m+1) ⟨3,0⟩ c either hits the cache or computes Input R
        cases h30 : c.lookup (⟨3, 0⟩, t) with
        | some v =>
          have ha : eval (gSR S R) (m + 1) t ⟨3, 0⟩ c = .ok (v, c) := by
            simp only [eval, h30]
          have hb := (ih c h21 h31).2
          simp only [ha, hb]
        | none =>
          cases R with
          | true =>
            have ha : eval (gSR S true) (m + 1) t ⟨3, 0⟩ c =
                .ok (true, c.insert (⟨3, 0⟩, t) true) := by
              simp only [eval, h30, hrem30, evalRemotesA, evalSourceA, hnd1]
            have h21' : (c.insert (⟨3, 0⟩, t) true).lookup (⟨2, 1⟩, t) = none := by
              simp [Cache.lookup_insert, h21]
            have h31' : (c.insert (⟨3, 0⟩, t) true).lookup (⟨3, 1⟩, t) = none := by
              simp [Cache.lookup_insert, h31]
            have hb := (ih _ h21' h31').2
            simp only [ha, hb]
          | false =>
            have ha : eval (gSR S false) (m + 1) t ⟨3, 0⟩ c =
                .ok (false, c.insert (⟨3, 0⟩, t) false) := by
              simp only [eval, h30, hrem30, evalRemotesA, evalSourceA, hnd1]
            have h21' : (c.insert (⟨3, 0⟩, t) false).lookup (⟨2, 1⟩, t) = none := by
              simp [Cache.lookup_insert, h21]
            have h31' : (c.insert (⟨3, 0⟩, t) false).lookup (⟨3, 1⟩, t) = none := by
              simp [Cache.lookup_insert, h31]
            have hb := (ih _ h21' h31').2
            simp only [ha, hb]
    · -- pin ⟨3,1⟩: its only source is Nand_A (node 2)
      simp only [eval, h31, hrem31, evalRemotesA, evalSourceA, hnd2]
      cases fuel with
      | zero => rfl
      | succ m =>
        cases h20 : c.lookup (⟨2, 0⟩, t) with
        | some v =>
          have ha : eval (gSR S R) (m + 1) t ⟨2, 0⟩ c = .ok (v, c) := by
            simp only [eval, h20]
          have hb := (ih c h21 h31).1
          simp only [ha, hb]
        | none =>
          cases S with
          | true =>
            have ha : eval (gSR true R) (m + 1) t ⟨2, 0⟩ c =
                .ok (true, c.insert (⟨2, 0⟩, t) true) := by
              simp only [eval, h20, hrem20, evalRemotesA, evalSourceA, hnd0]
            have h21' : (c.insert (⟨2, 0⟩, t) true).lookup (⟨2, 1⟩, t) = none := by
              simp [Cache.lookup_insert, h21]
            have h31' : (c.insert (⟨2, 0⟩, t) true).lookup (⟨3, 1⟩, t) = none := by
              simp [Cache.lookup_insert, h31]
            have hb := (ih _ h21' h31').1
            simp only [ha, hb]
          | false =>
            have ha : eval (gSR false R) (m + 1) t ⟨2, 0⟩ c =
                .ok (false, c.insert (⟨2, 0⟩, t) false) := by
              simp only [eval, h20, hrem20, evalRemotesA, evalSourceA, hnd0]
            have h21' : (c.insert (⟨2, 0⟩, t) false).lookup (⟨2, 1⟩, t) = none := by
              simp [Cache.lookup_insert, h21]
            have h31' : (c.insert (⟨2, 0⟩, t) false).lookup (⟨3, 1⟩, t) = none := by
              simp [Cache.lookup_insert, h31]
            have hb := (ih _ h21' h31').1
            simp only [ha, hb]

/-- Evaluating the SR latch's `Output` pin from a fresh cache exhausts any
fuel. -/
theorem sr_out_diverge (S R : Bool) (t : Nat) :
    ∀ fuel, eval (gSR S R) fuel t ⟨4, 0⟩ [] = .error .outOfFuel := by
  intro fuel
  cases fuel with
  | zero => rfl
  | succ fuel =>
    have hlk : Cache.lookup [] (⟨4, 0⟩, t) = none := rfl
    have hrem : (gSR S R).remotes ⟨4, 0⟩ = [2] := rfl
    have hnd2 : (gSR S R).nodes 2 = some (.Nand false) := rfl
    simp only [eval, hlk, hrem, evalRemotesA, evalSourceA, hnd2]
    cases fuel with
    | zero => rfl
    | succ m =>
      have h20 : Cache.lookup [] (⟨2, 0⟩, t) = none := rfl
      have hrem20 : (gSR S R).remotes ⟨2, 0⟩ = [0] := rfl
      have hnd0 : (gSR S R).nodes 0 = some (.Input S) := rfl
      cases S with
      | true =>
        have ha : eval (gSR true R) (m + 1) t ⟨2, 0⟩ [] =
            .ok (true, Cache.insert [] (⟨2, 0⟩, t) true) := by
          simp only [eval, h20, hrem20, evalRemotesA, evalSourceA, hnd0]
        have hb := (sr_diverge_pair true R t (m + 1)
          (Cache.insert [] (⟨2, 0⟩, t) true) rfl rfl).1
        simp only [ha, hb]
      | false =>
        have ha : eval (gSR false R) (m + 1) t ⟨2, 0⟩ [] =
            .ok (false, Cache.insert [] (⟨2, 0⟩, t) false) := by
          simp only [eval, h20, hrem20, evalRemotesA, evalSourceA, hnd0]
        have hb := (sr_diverge_pair false R t (m + 1)
          (Cache.insert [] (⟨2, 0⟩, t) false) rfl rfl).1
        simp only [ha, hb]

/-!
## Totality of the substitution semantics on ranked (acyclic) graphs
-/

theorem substListA_total {g : Graph} {sb : InPinId → Option Bool} {t : Nat}
    {l : List Nat} (h : ∀ s ∈ l, ∃ a, substSourceA g sb t s = some a) :
    ∃ w, substListA g sb t l = some w := by
  induction l with
  | nil => exact ⟨false, rfl⟩
  | cons s rest ih =>
    obtain ⟨a, ha⟩ := h s (List.mem_cons_self s rest)
    obtain ⟨w, hw⟩ := ih fun q hq => h q (List.mem_cons_of_mem s hq)
    exact ⟨a || w, by simp only [substListA, ha, hw]⟩

theorem substSourceA_total_of {g : Graph} {sb : InPinId → Option Bool}
    {t s : Nat} (hnd : ∃ nd, g.nodes s = some nd ∧ nd.isOutput = false)
    (hpin : ∀ j, ∃ v, sb ⟨s, j⟩ = some v) :
    ∃ a, substSourceA g sb t s = some a := by
  obtain ⟨nd, hs, hout⟩ := hnd
  unfold substSourceA
  rw [hs]
  cases nd
  case Input b => exact ⟨b, rfl⟩
  case Output b => simp [Node.isOutput] at hout
  case Clock b => exact ⟨_, rfl⟩
  case Node b => exact hpin 0
  case Not b =>
    obtain ⟨a, ha⟩ := hpin 0
    rw [ha]; exact ⟨_, rfl⟩
  all_goals
    obtain ⟨a, ha⟩ := hpin 0
    obtain ⟨b2, hb2⟩ := hpin 1
    rw [ha, hb2]; exact ⟨_, rfl⟩

theorem subst_total {g : Graph} {r : Nat → Nat} (hr : Ranked g r)
    (hw : Wf g) (p : InPinId) (t : Nat) :
    ∃ v, subst g (r p.node + 1) t p = some v := by
  suffices h : ∀ K n i t, r n < K → ∃ v, subst g (r n + 1) t ⟨n, i⟩ = some v by
    obtain ⟨n, i⟩ := p
    exact h (r n + 1) n i t (Nat.lt_succ_self _)
  intro K
  induction K using Nat.strong_induction_on with
  | _ K ih =>
    intro n i t hn
    simp only [subst]
    apply substListA_total
    intro s hs
    apply substSourceA_total_of (hw _ _ hs)
    intro j
    obtain ⟨v, hv⟩ := ih (r n) hn s j t (hr _ _ hs)
    exact ⟨v, subst_mono_le (hr _ _ hs) hv⟩

theorem substSource_total {g : Graph} {r : Nat → Nat} (hr : Ranked g r)
    (hw : Wf g) {s fs t : Nat}
    (hnd : ∃ nd, g.nodes s = some nd ∧ nd.isOutput = false)
    (hfs : r s < fs) :
    ∃ a, substSourceA g (fun p' => subst g fs t p') t s = some a := by
  apply substSourceA_total_of hnd
  intro j
  obtain ⟨v, hv⟩ := subst_total hr hw ⟨s, j⟩ t
  exact ⟨v, subst_mono_le hfs hv⟩

theorem substList_total {g : Graph} {r : Nat → Nat} (hr : Ranked g r)
    (hw : Wf g) (t : Nat) {fs : Nat} {l : List Nat}
    (hnd : ∀ s ∈ l, ∃ nd, g.nodes s = some nd ∧ nd.isOutput = false)
    (hfs : ∀ s ∈ l, r s < fs) :
    ∃ w, substListA g (fun p' => subst g fs t p') t l = some w :=
  substListA_total fun s hs => substSource_total hr hw (hnd s hs) (hfs s hs)

/-!
## The memoized evaluator agrees with the substitution semantics

On a ranked (acyclic) well-formed graph, `Graph::eval` run with fuel
exceeding the pin's rank returns exactly the substitution value, and keeps
every cache entry equal to the substitution value of its pin.
-/

/-- The induction hypothesis shape for `eval_subst_main` at a given fuel. -/
def EvalSubstIH (g : Graph) (r : Nat → Nat) (fuel : Nat) : Prop :=
  ∀ p t c, CacheOK g c → r p.node < fuel →
    ∃ v c', eval g fuel t p c = .ok (v, c') ∧
      subst g (r p.node + 1) t p = some v ∧ CacheOK g c'

theorem evalSource_subst {g : Graph} {r : Nat → Nat} (hr : Ranked g r)
    (hw : Wf g) {fuel : Nat} (IH : EvalSubstIH g r fuel)
    {s fs : Nat} (t : Nat) {c : Cache} (hc : CacheOK g c)
    (hnd : ∃ nd, g.nodes s = some nd ∧ nd.isOutput = false)
    (hfuel : r s < fuel) (hfs : r s < fs) :
    ∃ a c1, evalSourceA g (fun p' c' => eval g fuel t p' c') t s c = .ok (a, c1) ∧
      substSourceA g (fun p' => subst g fs t p') t s = some a ∧ CacheOK g c1 := by
  obtain ⟨nd, hs, hout⟩ := hnd
  have hpin : ∀ j (c0 : Cache), CacheOK g c0 → ∃ v c1,
      eval g fuel t ⟨s, j⟩ c0 = .ok (v, c1) ∧
      subst g fs t ⟨s, j⟩ = some v ∧ CacheOK g c1 := by
    intro j c0 hc0
    obtain ⟨v, c1, he, hsub, hc1⟩ := IH ⟨s, j⟩ t c0 hc0 hfuel
    exact ⟨v, c1, he, subst_mono_le (Nat.succ_le_of_lt hfs) hsub, hc1⟩
  unfold evalSourceA substSourceA
  rw [hs]
  cases nd
  case Input b => exact ⟨b, c, rfl, rfl, hc⟩
  case Output b => simp [Node.isOutput] at hout
  case Clock b => exact ⟨_, c, rfl, rfl, hc⟩
  case Node b =>
    obtain ⟨v, c1, he, hsub, hc1⟩ := hpin 0 c hc
    exact ⟨v, c1, he, hsub, hc1⟩
  case Not b =>
    obtain ⟨v, c1, he, hsub, hc1⟩ := hpin 0 c hc
    simp only [he, hsub]
    exact ⟨!v, c1, rfl, rfl, hc1⟩
  all_goals
    obtain ⟨a, c1, he1, hs1, hc1⟩ := hpin 0 c hc
    obtain ⟨b2, c2, he2, hs2, hc2⟩ := hpin 1 c1 hc1
    simp only [he1, he2, hs1, hs2]
    exact ⟨_, c2, rfl, rfl, hc2⟩

theorem evalRemotes_subst {g : Graph} {r : Nat → Nat} (hr : Ranked g r)
    (hw : Wf g) {fuel : Nat} (IH : EvalSubstIH g r fuel) :
    ∀ (l : List Nat) (t : Nat) (c : Cache) (fs : Nat), CacheOK g c →
      (∀ s ∈ l, r s < fuel) → (∀ s ∈ l, r s < fs) →
      (∀ s ∈ l, ∃ nd, g.nodes s = some nd ∧ nd.isOutput = false) →
      ∃ v c', evalRemotesA g (fun p' c' => eval g fuel t p' c') t l c = .ok (v, c') ∧
        substListA g (fun p' => subst g fs t p') t l = some v ∧ CacheOK g c' := by
  intro l
  induction l with
  | nil => exact fun t c fs hc _ _ _ => ⟨false, c, rfl, rfl, hc⟩
  | cons s rest ihl =>
    intro t c fs hc hfu hfs hnd
    have hms : s ∈ s :: rest := List.mem_cons_self s rest
    obtain ⟨a, c1, he, hsa, hc1⟩ :=
      evalSource_subst hr hw IH t hc (hnd s hms) (hfu s hms) (hfs s hms)
    cases a with
    | true =>
      obtain ⟨w, hwr⟩ := substList_total hr hw t
        (fun q hq => hnd q (List.mem_cons_of_mem s hq))
        (fun q hq => hfs q (List.mem_cons_of_mem s hq))
      refine ⟨true, c1, ?_, ?_, hc1⟩
      · simp only [evalRemotesA, he]
      · simp only [substListA, hsa, hwr, Bool.true_or]
    | false =>
      obtain ⟨vr, c2, he2, hs2, hc2⟩ := ihl t c1 fs hc1
        (fun q hq => hfu q (List.mem_cons_of_mem s hq))
        (fun q hq => hfs q (List.mem_cons_of_mem s hq))
        (fun q hq => hnd q (List.mem_cons_of_mem s hq))
      refine ⟨vr, c2, ?_, ?_, hc2⟩
      · simp only [evalRemotesA, he, he2]
      · simp only [substListA, hsa, hs2, Bool.false_or]

theorem eval_subst_main {g : Graph} {r : Nat → Nat} (hr : Ranked g r)
    (hw : Wf g) : ∀ fuel, EvalSubstIH g r fuel := by
  intro fuel
  induction fuel with
  | zero => exact fun p t c _ h => absurd h (Nat.not_lt_zero _)
  | succ fuel ih =>
    intro p t c hc hlt
    cases hcl : c.lookup (p, t) with
    | some b =>
      obtain ⟨f, hf⟩ := hc p t b hcl
      obtain ⟨w, hwv⟩ := subst_total hr hw p t
      have hwb : w = b := subst_agree hwv hf
      refine ⟨b, c, by simp only [eval, hcl], ?_, hc⟩
      rw [← hwb]; exact hwv
    | none =>
      have hfu : ∀ s ∈ g.remotes p, r s < fuel :=
        fun s hs => lt_of_lt_of_le (hr p s hs) (Nat.lt_succ_iff.mp hlt)
      obtain ⟨v, c1, he, hsl, hc1⟩ := evalRemotes_subst hr hw ih
        (g.remotes p) t c (r p.node) hc hfu (fun s hs => hr p s hs)
        (fun s hs => hw p s hs)
      refine ⟨v, c1.insert (p, t) v, ?_, ?_, ?_⟩
      · simp only [eval, hcl, he]
      · simp only [subst]; exact hsl
      · intro q t' b hq
        rw [Cache.lookup_insert] at hq
        by_cases hk : ((p, t) : InPinId × Nat) = (q, t')
        · rw [if_pos hk] at hq
          obtain ⟨rfl, rfl⟩ := Prod.mk.injEq .. ▸ hk
          refine ⟨r p.node + 1, ?_⟩
          simp only [subst]
          rw [hsl]; exact congrArg some (Option.some_injective _ hq)
        · rw [if_neg hk] at hq
          exact hc1 q t' b hq

/-!
## Cache evolution: an evaluation at tick `t` never touches entries of
other ticks
-/

/-- `c'` agrees with `c` on every memo key whose tick differs from `t`. -/
def OffTickEq (t : Nat) (c c' : Cache) : Prop :=
  ∀ q t', t' ≠ t → Cache.lookup c' (q, t') = Cache.lookup c (q, t')

theorem offTickEq_refl (t : Nat) (c : Cache) : OffTickEq t c c :=
  fun _ _ _ => rfl

theorem offTickEq_trans {t : Nat} {c c' c'' : Cache}
    (h1 : OffTickEq t c c') (h2 : OffTickEq t c' c'') : OffTickEq t c c'' :=
  fun q t' ht => (h2 q t' ht).trans (h1 q t' ht)

/-- A cache-to-cache relation that holds reflexively, composes, and holds
for every successful `ev` step also holds across `evalSourceA`. -/
theorem evalSourceA_pres {g : Graph}
    {ev : InPinId → Cache → Except Err (Bool × Cache)}
    {P : Cache → Cache → Prop} (hrefl : ∀ c, P c c)
    (htrans : ∀ {a b c}, P a b → P b c → P a c)
    (hev : ∀ p c v c', ev p c = .ok (v, c') → P c c')
    {t s : Nat} {c c1 : Cache} {a : Bool}
    (h : evalSourceA g ev t s c = .ok (a, c1)) : P c c1 := by
  unfold evalSourceA at h
  cases hnd : g.nodes s <;> rw [hnd] at h
  case none => exact Except.noConfusion h
  case some nd =>
    cases nd
    case Input b =>
      simp only [Except.ok.injEq, Prod.mk.injEq] at h
      exact h.2 ▸ hrefl c
    case Output b => exact Except.noConfusion h
    case Clock b =>
      simp only [Except.ok.injEq, Prod.mk.injEq] at h
      exact h.2 ▸ hrefl c
    case Node b =>
      exact hev _ _ _ _ h
    case Not b =>
      cases h0 : ev ⟨s, 0⟩ c <;> rw [h0] at h
      case error e => simp at h
      case ok ac =>
        obtain ⟨a0, c0⟩ := ac
        simp only [Except.ok.injEq, Prod.mk.injEq] at h
        exact h.2 ▸ hev _ _ _ _ h0
    all_goals
      cases h0 : ev ⟨s, 0⟩ c <;> rw [h0] at h
      case error e => simp at h
      case ok ac =>
        obtain ⟨a0, c0⟩ := ac
        simp only [] at h
        cases h1 : ev ⟨s, 1⟩ c0 <;> rw [h1] at h
        case error e => simp at h
        case ok bc =>
          obtain ⟨b1, c2⟩ := bc
          simp only [Except.ok.injEq, Prod.mk.injEq] at h
          exact htrans (hev _ _ _ _ h0) (h.2 ▸ hev _ _ _ _ h1)

/-- The relation of `evalSourceA_pres`, lifted across the `any` fold. -/
theorem evalRemotesA_pres {g : Graph}
    {ev : InPinId → Cache → Except Err (Bool × Cache)}
    {P : Cache → Cache → Prop} (hrefl : ∀ c, P c c)
    (htrans : ∀ {a b c}, P a b → P b c → P a c)
    (hev : ∀ p c v c', ev p c = .ok (v, c') → P c c')
    {t : Nat} {l : List Nat} :
    ∀ {c c1 : Cache} {a : Bool},
      evalRemotesA g ev t l c = .ok (a, c1) → P c c1 := by
  induction l with
  | nil =>
    intro c c1 a h
    simp only [evalRemotesA, Except.ok.injEq, Prod.mk.injEq] at h
    exact h.2 ▸ hrefl c
  | cons s rest ih =>
    intro c c1 a h
    unfold evalRemotesA at h
    cases h0 : evalSourceA g ev t s c <;> rw [h0] at h
    case error e => exact Except.noConfusion h
    case ok ac =>
      obtain ⟨a0, c0⟩ := ac
      have hstep : P c c0 := evalSourceA_pres hrefl htrans hev h0
      cases a0
      case true =>
        simp only [Except.ok.injEq, Prod.mk.injEq] at h
        exact h.2 ▸ hstep
      case false =>
        exact htrans hstep (ih h)

/-- `Graph::eval` at tick `t` only creates or changes memo entries whose
key carries tick `t`: lookups at any other tick are unchanged. -/
theorem eval_offTick {g : Graph} :
    ∀ {fuel t : Nat} {p : InPinId} {c c' : Cache} {v : Bool},
      eval g fuel t p c = .ok (v, c') → OffTickEq t c c' := by
  intro fuel
  induction fuel with
  | zero => intro t p c c' v h; exact Except.noConfusion h
  | succ fuel ih =>
    intro t p c c' v h
    unfold eval at h
    cases hcl : c.lookup (p, t) <;> rw [hcl] at h
    case some b =>
      simp only [Except.ok.injEq, Prod.mk.injEq] at h
      exact h.2 ▸ offTickEq_refl t c
    case none =>
      cases hre : evalRemotesA g (fun p' c' => eval g fuel t p' c') t
          (g.remotes p) c <;> rw [hre] at h
      case error e => exact Except.noConfusion h
      case ok rc =>
        obtain ⟨rv, c1⟩ := rc
        simp only [Except.ok.injEq, Prod.mk.injEq] at h
        have hrem : OffTickEq t c c1 :=
          evalRemotesA_pres (offTickEq_refl t)
            (fun h1 h2 => offTickEq_trans h1 h2)
            (fun p0 c0 v0 c0' h0 => ih h0) hre
        intro q t' ht
        rw [← h.2, Cache.lookup_insert]
        rw [if_neg fun hk => ht (congrArg Prod.snd hk).symm]
        exact hrem q t' ht

/-!
## Evaluation ignores every payload except `Input` payloads

The evaluator reads a node's stored boolean only in the `Input` branch;
the payloads embedded in all other variants (including the one `Output`
displays) never influence a computed value.
-/

/-- Canonicalize the payload the evaluator never reads: keep the variant
and the `Input` payload, zero out every other stored boolean. -/
def Node.key : CodotakuLogic.Node → CodotakuLogic.Node
  | .Input b => .Input b
  | .Output _ => .Output false
  | .Nand _ => .Nand false
  | .Clock _ => .Clock false
  | .Node _ => .Node false
  | .Not _ => .Not false
  | .And _ => .And false
  | .Or _ => .Or false
  | .Xor _ => .Xor false
  | .Nor _ => .Nor false
  | .Xnor _ => .Xnor false

theorem evalSourceA_congr {g1 g2 : Graph}
    (hnodes : ∀ n, (g1.nodes n).map Node.key = (g2.nodes n).map Node.key)
    (ev : InPinId → Cache → Except Err (Bool × Cache)) (t s : Nat)
    (c : Cache) : evalSourceA g1 ev t s c = evalSourceA g2 ev t s c := by
  unfold evalSourceA
  have h := hnodes s
  cases h1 : g1.nodes s <;> cases h2 : g2.nodes s <;> rw [h1, h2] at h
  · exact absurd h (by simp)
  · exact absurd h (by simp)
  · rename_i a b
    cases a <;> cases b <;> simp [Node.key] at h <;> try subst h
    all_goals rfl

theorem evalRemotesA_congr {g1 g2 : Graph}
    (hnodes : ∀ n, (g1.nodes n).map Node.key = (g2.nodes n).map Node.key)
    (ev : InPinId → Cache → Except Err (Bool × Cache)) (t : Nat) :
    ∀ (l : List Nat) (c : Cache),
      evalRemotesA g1 ev t l c = evalRemotesA g2 ev t l c := by
  intro l
  induction l with
  | nil => intro c; rfl
  | cons s rest ih =>
    intro c
    simp only [evalRemotesA]
    rw [evalSourceA_congr hnodes ev t s c]
    cases hsrc : evalSourceA g2 ev t s c with
    | error e => rfl
    | ok ac =>
      obtain ⟨a, c1⟩ := ac
      cases a
      · exact ih c1
      · rfl

/-- Two graphs with the same wiring whose nodes agree up to `Node.key`
(same variants, same `Input` payloads) evaluate identically: same values,
same errors, same cache evolution. -/
theorem eval_congr {g1 g2 : Graph} (hrem : g1.remotes = g2.remotes)
    (hnodes : ∀ n, (g1.nodes n).map Node.key = (g2.nodes n).map Node.key) :
    ∀ fuel t p c, eval g1 fuel t p c = eval g2 fuel t p c := by
  intro fuel
  induction fuel with
  | zero => intro t p c; rfl
  | succ fuel ih =>
    intro t p c
    have hev : (fun p' c' => eval g1 fuel t p' c') =
        (fun p' c' => eval g2 fuel t p' c') := by
      funext p' c'
      exact ih t p' c'
    simp only [eval]
    rw [hev, hrem, evalRemotesA_congr hnodes _ t (g2.remotes p) c]

/-!
## The `Output`-as-source panic
-/

theorem evalRemotesA_append {g : Graph}
    {ev : InPinId → Cache → Except Err (Bool × Cache)} {t : Nat}
    (l1 l2 : List Nat) (c : Cache) :
    evalRemotesA g ev t (l1 ++ l2) c =
      match evalRemotesA g ev t l1 c with
      | .error e => .error e
      | .ok (true, c1) => .ok (true, c1)
      | .ok (false, c1) => evalRemotesA g ev t l2 c1 := by
  induction l1 generalizing c with
  | nil => rfl
  | cons s rest ih =>
    simp only [List.cons_append, evalRemotesA]
    cases evalSourceA g ev t s c with
    | error e => rfl
    | ok ac =>
      obtain ⟨a, c1⟩ := ac
      cases a
      · exact ih c1
      · rfl

/-- If the fold of the `any` closure actually reaches an `Output` source
(everything wired before it on the pin contributed `false`), the
`unreachable!` branch fires: evaluation panics instead of producing a
value. -/
theorem eval_panics_on_reached_output {g : Graph} {p : InPinId}
    {pre rest : List Nat} {out : Nat} {b : Bool} {t fuel : Nat} {c c1 : Cache}
    (hrem : g.remotes p = pre ++ out :: rest)
    (hout : g.nodes out = some (.Output b))
    (hmiss : c.lookup (p, t) = none)
    (hpre : evalRemotesA g (fun p' c' => eval g fuel t p' c') t pre c =
      .ok (false, c1)) :
    eval g (fuel + 1) t p c = .error .panic := by
  simp only [eval, hmiss, hrem, evalRemotesA_append, hpre]
  simp only [evalRemotesA, evalSourceA, hout]

/-- Under the structural invariant (every source exists and is never an
`Output`), no evaluation can hit a panic branch. -/
theorem evalSourceA_no_panic {g : Graph}
    {ev : InPinId → Cache → Except Err (Bool × Cache)}
    (hev : ∀ p c, ev p c ≠ .error .panic) {t s : Nat} {c : Cache}
    (hnd : ∃ nd, g.nodes s = some nd ∧ nd.isOutput = false) :
    evalSourceA g ev t s c ≠ .error .panic := by
  obtain ⟨nd, hs, hout⟩ := hnd
  unfold evalSourceA
  rw [hs]
  cases nd
  case Input b => simp
  case Output b => simp [Node.isOutput] at hout
  case Clock b => simp
  case Node b => exact hev _ _
  case Not b =>
    cases h0 : ev ⟨s, 0⟩ c with
    | error e =>
      cases e
      · simp
      · exact absurd h0 (hev _ _)
    | ok ac =>
      obtain ⟨a, c1⟩ := ac
      simp
  all_goals
    cases h0 : ev ⟨s, 0⟩ c with
    | error e =>
      cases e
      · simp
      · exact absurd h0 (hev _ _)
    | ok ac =>
      obtain ⟨a, c1⟩ := ac
      simp only []
      cases h1 : ev ⟨s, 1⟩ c1 with
      | error e =>
        cases e
        · simp
        · exact absurd h1 (hev _ _)
      | ok bc =>
        obtain ⟨b1, c2⟩ := bc
        simp

theorem evalRemotesA_no_panic {g : Graph}
    {ev : InPinId → Cache → Except Err (Bool × Cache)}
    (hev : ∀ p c, ev p c ≠ .error .panic) {t : Nat} {l : List Nat}
    (hnd : ∀ s ∈ l, ∃ nd, g.nodes s = some nd ∧ nd.isOutput = false) :
    ∀ c, evalRemotesA g ev t l c ≠ .error .panic := by
  induction l with
  | nil => intro c; simp [evalRemotesA]
  | cons s rest ih =>
    intro c
    simp only [evalRemotesA]
    cases h0 : evalSourceA g ev t s c with
    | error e =>
      cases e
      · simp
      · exact absurd h0 (evalSourceA_no_panic hev (hnd s (List.mem_cons_self s rest)))
    | ok ac =>
      obtain ⟨a, c1⟩ := ac
      cases a
      · exact ih (fun q hq => hnd q (List.mem_cons_of_mem s hq)) c1
      · simp

/-- `Graph::eval` never panics on a well-formed graph: the `unreachable!`
branch is indeed unreachable when `Output` nodes are never sources and all
connections reference live nodes. -/
theorem eval_no_panic {g : Graph} (hw : Wf g) :
    ∀ fuel t p c, eval g fuel t p c ≠ .error .panic := by
  intro fuel
  induction fuel with
  | zero => intro t p c; simp [eval]
  | succ fuel ih =>
    intro t p c
    simp only [eval]
    cases hcl : c.lookup (p, t) with
    | some v => simp
    | none =>
      simp only []
      cases hre : evalRemotesA g (fun p' c' => eval g fuel t p' c') t
          (g.remotes p) c with
      | error e =>
        cases e
        · simp
        · exact absurd hre
            (evalRemotesA_no_panic (fun p' c' => ih t p' c')
              (fun s hs => hw p s hs) c)
      | ok rc =>
        obtain ⟨rv, c1⟩ := rc
        simp

/-!
## The fan-in rule: a pin's value is the OR (`List.any`) of its sources
-/

theorem substListA_eq_any {g : Graph} {sb : InPinId → Option Bool} {t : Nat}
    {l : List Nat} {w : Bool} (h : substListA g sb t l = some w) :
    w = l.any fun s => (substSourceA g sb t s).getD false := by
  induction l generalizing w with
  | nil =>
    simp only [substListA, Option.some.injEq] at h
    simp [← h]
  | cons s rest ih =>
    unfold substListA at h
    cases hs : substSourceA g sb t s <;> rw [hs] at h
    · exact absurd h (by simp)
    · cases hr : substListA g sb t rest <;> rw [hr] at h
      · exact absurd h (by simp)
      · simp only [Option.some.injEq] at h
        simp [← h, hs, ih hr]

theorem substListA_sources_some {g : Graph} {sb : InPinId → Option Bool}
    {t : Nat} {l : List Nat} {w : Bool} (h : substListA g sb t l = some w) :
    ∀ s ∈ l, ∃ a, substSourceA g sb t s = some a := by
  induction l generalizing w with
  | nil => intro s hs; exact absurd hs (List.not_mem_nil s)
  | cons s rest ih =>
    unfold substListA at h
    cases hs : substSourceA g sb t s <;> rw [hs] at h
    · exact absurd h (by simp)
    · cases hr : substListA g sb t rest <;> rw [hr] at h
      · exact absurd h (by simp)
      · intro q hq
        rcases List.mem_cons.mp hq with rfl | hq'
        · exact ⟨_, hs⟩
        · exact ih hr q hq'

/-!
## The tick refresh
-/

theorem cacheOK_nil (g : Graph) : CacheOK g [] :=
  fun _ _ _ h => Option.noConfusion h

/-- `Node.key` forgets no more than `Node.visible` does. -/
def Node.visible : CodotakuLogic.Node → CodotakuLogic.Node
  | .Input b => .Input b
  | .Output b => .Output b
  | .Nand _ => .Nand false
  | .Clock _ => .Clock false
  | .Node _ => .Node false
  | .Not _ => .Not false
  | .And _ => .And false
  | .Or _ => .Or false
  | .Xor _ => .Xor false
  | .Nor _ => .Nor false
  | .Xnor _ => .Xnor false

theorem Node.key_visible (nd : CodotakuLogic.Node) :
    nd.visible.key = nd.key := by
  cases nd <;> rfl

/-- The invariant-preserving unfolding of the `refresh` loop: on a ranked
well-formed graph the loop terminates, writes into each processed `Output`
node exactly its pin's substitution value at the refresh tick, and touches
nothing else. -/
theorem refresh_spec {g : Graph} {r : Nat → Nat} (hr : Ranked g r)
    (hw : Wf g) (t fuel : Nat) :
    ∀ (outs : List Nat) (gc : Graph) (c : Cache),
      gc.remotes = g.remotes →
      gc.nodeIds = g.nodeIds →
      (∀ n, (gc.nodes n).map Node.key = (g.nodes n).map Node.key) →
      CacheOK g c →
      (∀ id ∈ outs, r id < fuel) →
      (∀ id ∈ outs, ∃ b, gc.nodes id = some (.Output b)) →
      outs.Nodup →
      ∃ g', refresh fuel t gc outs c = some g' ∧
        g'.remotes = g.remotes ∧ g'.nodeIds = g.nodeIds ∧
        (∀ n, (g'.nodes n).map Node.key = (g.nodes n).map Node.key) ∧
        (∀ id ∈ outs, ∃ v, subst g (r id + 1) t ⟨id, 0⟩ = some v ∧
          g'.nodes id = some (.Output v)) ∧
        (∀ n, n ∉ outs → g'.nodes n = gc.nodes n) := by
  intro outs
  induction outs with
  | nil =>
    intro gc c h1 h2 h3 _ _ _ _
    exact ⟨gc, rfl, h1, h2, h3, fun id hid => absurd hid (List.not_mem_nil id),
      fun n _ => rfl⟩
  | cons id rest ih =>
    intro gc c hrem hids hkeys hc hfu hout hnodup
    have hmem : id ∈ id :: rest := List.mem_cons_self id rest
    obtain ⟨v, c', heq, hsub, hc'⟩ :=
      eval_subst_main hr hw fuel ⟨id, 0⟩ t c hc (hfu id hmem)
    have heval : eval gc fuel t ⟨id, 0⟩ c = .ok (v, c') := by
      rw [eval_congr hrem hkeys fuel t ⟨id, 0⟩ c]
      exact heq
    obtain ⟨b, hb⟩ := hout id hmem
    have hg2rem : (gc.setNode id (.Output v)).remotes = g.remotes := hrem
    have hg2ids : (gc.setNode id (.Output v)).nodeIds = g.nodeIds := hids
    have hg2keys : ∀ n, ((gc.setNode id (.Output v)).nodes n).map Node.key =
        (g.nodes n).map Node.key := by
      intro n
      by_cases hn : n = id
      · subst hn
        have := hkeys n
        rw [hb] at this
        simp only [Graph.setNode, if_pos rfl]
        simpa [Node.key] using this.symm ▸ this
      · simp only [Graph.setNode, if_neg hn]
        exact hkeys n
    have hg2out : ∀ q ∈ rest, ∃ b2,
        (gc.setNode id (.Output v)).nodes q = some (.Output b2) := by
      intro q hq
      by_cases hn : q = id
      · exact ⟨v, by simp [Graph.setNode, hn]⟩
      · obtain ⟨b2, hb2⟩ := hout q (List.mem_cons_of_mem id hq)
        exact ⟨b2, by simp only [Graph.setNode, if_neg hn]; exact hb2⟩
    obtain ⟨g', href, h1, h2, h3, h4, h5⟩ :=
      ih (gc.setNode id (.Output v)) c' hg2rem hg2ids hg2keys hc'
        (fun q hq => hfu q (List.mem_cons_of_mem id hq)) hg2out
        (List.Nodup.of_cons hnodup)
    have hidrest : id ∉ rest := (List.nodup_cons.mp hnodup).1
    refine ⟨g', ?_, h1, h2, h3, ?_, ?_⟩
    · simp only [refresh, heval, hb]
      exact href
    · intro q hq
      rcases List.mem_cons.mp hq with rfl | hq'
      · refine ⟨v, hsub, ?_⟩
        rw [h5 q hidrest]
        simp [Graph.setNode]
      · exact h4 q hq'
    · intro n hn
      have hn1 : n ≠ id := fun h => hn (h ▸ List.mem_cons_self id rest)
      have hn2 : n ∉ rest := fun h => hn (List.mem_cons_of_mem id h)
      rw [h5 n hn2]
      simp only [Graph.setNode, if_neg hn1]

theorem outputIds_mem {g : Graph} {id : Nat} (h : id ∈ g.outputIds) :
    ∃ b, g.nodes id = some (.Output b) := by
  unfold Graph.outputIds at h
  have hp := (List.mem_filter.mp h).2
  cases hnd : g.nodes id <;> rw [hnd] at hp
  · exact absurd hp (by simp)
  · rename_i nd
    cases nd <;> simp [Node.isOutput] at hp
    rename_i b
    exact ⟨b, rfl⟩

theorem outputIds_nodup {g : Graph} (h : g.nodeIds.Nodup) :
    g.outputIds.Nodup :=
  List.Nodup.filter _ h

/-- On a ranked well-formed graph, a fired tick increments the counter by
exactly one and then writes into every `Output` node the evaluation of its
input pin 0 at the new tick value. -/
theorem tick_spec {g : Graph} {r : Nat → Nat} (hr : Ranked g r) (hw : Wf g)
    (ticks fuel : Nat) (hnodup : g.nodeIds.Nodup)
    (hfuel : ∀ id ∈ g.outputIds, r id < fuel) :
    ∃ g', g.tick ticks true fuel = some (g', ticks + 1) ∧
      ∀ id ∈ g.outputIds, ∃ v c',
        eval g fuel (ticks + 1) ⟨id, 0⟩ [] = .ok (v, c') ∧
        g'.nodes id = some (.Output v) := by
  obtain ⟨g', href, _, _, _, h4, _⟩ :=
    refresh_spec hr hw (ticks + 1) fuel g.outputIds g [] rfl rfl
      (fun n => rfl) (cacheOK_nil g) hfuel
      (fun id h => outputIds_mem h) (outputIds_nodup hnodup)
  refine ⟨g', ?_, ?_⟩
  · simp only [Graph.tick, if_true, href]
  · intro id hid
    obtain ⟨v, hsub, hnode⟩ := h4 id hid
    obtain ⟨w, c', hev, hsubw, _⟩ := eval_subst_main hr hw fuel ⟨id, 0⟩
      (ticks + 1) [] (cacheOK_nil g) (hfuel id hid)
    have hvw : w = v := subst_agree hsubw hsub
    exact ⟨v, c', hvw ▸ hev, hnode⟩

theorem any_perm {α : Type} {l1 l2 : List α} (h : List.Perm l1 l2)
    (f : α → Bool) : l1.any f = l2.any f := by
  rw [Bool.eq_iff_iff]
  simp only [List.any_eq_true]
  exact ⟨fun ⟨x, hx, hf⟩ => ⟨x, h.mem_iff.mp hx, hf⟩,
    fun ⟨x, hx, hf⟩ => ⟨x, h.mem_iff.mpr hx, hf⟩⟩

/-!
## Structural facts about the concrete circuits
-/

theorem gNand_ranked : Ranked gNand fun n => n := by
  intro p s h
  simp only [gNand] at h
  split_ifs at h with h1 h2 h3 <;> simp at h
  · subst h1; subst h; decide
  · subst h2; subst h; decide
  · subst h3; subst h; decide

theorem gNand_wf : Wf gNand := by
  intro p s h
  simp only [gNand] at h
  split_ifs at h with h1 h2 h3 <;> simp at h
  · subst h; exact ⟨.Input true, rfl, rfl⟩
  · subst h; exact ⟨.Input false, rfl, rfl⟩
  · subst h; exact ⟨.Nand false, rfl, rfl⟩

theorem gFanIn_ranked : Ranked gFanIn fun n => n := by
  intro p s h
  simp only [gFanIn] at h
  split_ifs at h with h1 <;> simp at h
  subst h1
  rcases h with rfl | rfl <;> decide

theorem gFanIn_wf : Wf gFanIn := by
  intro p s h
  simp only [gFanIn] at h
  split_ifs at h with h1 <;> simp at h
  rcases h with rfl | rfl
  · exact ⟨.Input true, rfl, rfl⟩
  · exact ⟨.Input false, rfl, rfl⟩

/-- The `gNand` circuit with the dead payload of its `Nand` node flipped. -/
def gNandAlt : Graph :=
  { gNand with
    nodes := fun n => if n = 2 then some (.Nand true) else gNand.nodes n }

/-!
## Claim theorems
-/

/-- C1 (code bug): the claim requires that re-entering `evaluate` on a pin
whose computation is in progress terminates, the in-progress dependency
contributing `false`.  The code has no in-progress guard: a re-entrant
call misses the memo (entries are inserted only after full resolution) and
recurses again.  On the minimal feedback cycle — a `Nand` wired to its own
input pin — evaluating the cyclic pin exhausts every fuel bound, i.e. the
Rust recursion never terminates. -/
theorem C1_cyclic_eval_diverges :
    ∀ (t fuel : Nat), eval gSelfLoop fuel t ⟨0, 0⟩ [] = .error .outOfFuel :=
  fun t fuel => selfLoop_diverge_aux t [] rfl fuel

/-- C2 (code bug): the claim requires the cross-coupled `Nand` SR latch to
reach a stable fixed point over ticks, with every single tick's evaluation
terminating.  Instead the very first fired tick never completes: for every
(S,R) input combination and every fuel bound, the refresh runs out of
fuel, i.e. evaluating the latch diverges inside one tick. -/
theorem C2_sr_latch_tick_diverges :
    ∀ (S R : Bool) (ticks fuel : Nat),
      Graph.tick (gSR S R) ticks true fuel = none := by
  intro S R ticks fuel
  have hout : (gSR S R).outputIds = [4] := rfl
  simp only [Graph.tick, if_true, hout, refresh, sr_out_diverge]

/-- C3 (confirmed): on an acyclic (ranked) well-formed circuit, `eval`
returns exactly the value of the substitution semantics `subst` — each
`Input` payload substituted through the boolean expression implied by the
gate tree, `Clock` ↦ `t % 2 == 0`, buffer ↦ identity, `Not` ↦ negation,
binary gates ↦ their boolean operator. -/
theorem C3_acyclic_eval_substitutes {g : Graph} {r : Nat → Nat}
    (hr : Ranked g r) (hw : Wf g) {p : InPinId} (fs : Nat)
    {fuel t : Nat} {v : Bool} (hfuel : r p.node < fuel)
    (hs : subst g fs t p = some v) :
    ∃ c', eval g fuel t p [] = .ok (v, c') := by
  obtain ⟨w, c', he, hsubw, _⟩ :=
    eval_subst_main hr hw fuel p t [] (cacheOK_nil g) hfuel
  have hwv : w = v := subst_agree hsubw hs
  exact ⟨c', hwv ▸ he⟩

/-- C3 witness: `Nand(Input(true), Input(false))` evaluates to `true` at
the `Output`'s input pin. -/
theorem C3_witness : ∃ c', eval gNand 4 0 ⟨3, 0⟩ [] = .ok (true, c') :=
  C3_acyclic_eval_substitutes gNand_ranked gNand_wf 4 (by decide) (by decide)

/-- C4 (confirmed): on a ranked well-formed circuit the value of a pin is
the `List.any` (logical OR) of its sources' values, computed over any
permutation of the connection list — the result is independent of the
order of the connections.  (On a feedback cycle the evaluation has no
value at all: it diverges, see C1.) -/
theorem C4_fanin_or_any_order {g : Graph} {r : Nat → Nat} (hr : Ranked g r)
    (hw : Wf g) {p : InPinId} {fuel t : Nat} (hfuel : r p.node < fuel)
    (l' : List Nat) (hperm : List.Perm (g.remotes p) l') :
    ∃ v c', eval g fuel t p [] = .ok (v, c') ∧
      v = l'.any fun s =>
        (substSourceA g (fun q => subst g (r p.node) t q) t s).getD false := by
  obtain ⟨v, c', he, hsub, _⟩ :=
    eval_subst_main hr hw fuel p t [] (cacheOK_nil g) hfuel
  refine ⟨v, c', he, ?_⟩
  have hlist : substListA g (fun q => subst g (r p.node) t q) t
      (g.remotes p) = some v := by
    simpa [subst] using hsub
  exact (substListA_eq_any hlist).trans (any_perm hperm _)

/-- C4 witness: a pin fed by `Input(true)` and `Input(false)` evaluates to
`true`, and its value equals the OR over the reversed connection list. -/
theorem C4_witness :
    (∃ v c', eval gFanIn 3 0 ⟨2, 0⟩ [] = .ok (v, c') ∧
      v = [1, 0].any fun s =>
        (substSourceA gFanIn (fun q => subst gFanIn 2 0 q) 0 s).getD false) ∧
    evalV gFanIn 3 0 ⟨2, 0⟩ = .ok true :=
  ⟨C4_fanin_or_any_order gFanIn_ranked gFanIn_wf (by decide) [1, 0]
    (by decide), by decide⟩

/-- C5 (confirmed): a fired tick (timer finished or manual Step, both
embedded as `fire = true`) increments the tick counter by exactly one and
then writes into every `Output` node the evaluation of its input pin 0 at
the new tick value. -/
theorem C5_tick_increments_and_writes_outputs {g : Graph} {r : Nat → Nat}
    (hr : Ranked g r) (hw : Wf g) (ticks fuel : Nat)
    (hnodup : g.nodeIds.Nodup) (hfuel : ∀ id ∈ g.outputIds, r id < fuel) :
    ∃ g', g.tick ticks true fuel = some (g', ticks + 1) ∧
      ∀ id ∈ g.outputIds, ∃ v c',
        eval g fuel (ticks + 1) ⟨id, 0⟩ [] = .ok (v, c') ∧
        g'.nodes id = some (.Output v) :=
  tick_spec hr hw ticks fuel hnodup hfuel

/-- C5 witness: ticking the `Nand(Input(true), Input(false)) → Output`
circuit once from tick 0 yields counter 1 and refreshed outputs. -/
theorem C5_witness :
    ∃ g', gNand.tick 0 true 5 = some (g', 1) ∧
      ∀ id ∈ gNand.outputIds, ∃ v c',
        eval gNand 5 1 ⟨id, 0⟩ [] = .ok (v, c') ∧
        g'.nodes id = some (.Output v) :=
  C5_tick_increments_and_writes_outputs gNand_ranked gNand_wf 0 5
    (by decide) (by decide)

/-- C6 (confirmed): a pin sourced from a `Clock` node evaluates to
`t % 2 == 0`, and its values at two consecutive ticks differ. -/
theorem C6_clock_parity {g : Graph} {p : InPinId} {s : Nat} {b : Bool}
    (h1 : g.remotes p = [s]) (h2 : g.nodes s = some (.Clock b))
    (fuel t : Nat) :
    ∃ c1 c2, eval g (fuel + 1) t p [] = .ok (decide (t % 2 = 0), c1) ∧
      eval g (fuel + 1) (t + 1) p [] = .ok (decide ((t + 1) % 2 = 0), c2) ∧
      decide (t % 2 = 0) ≠ decide ((t + 1) % 2 = 0) := by
  have key : ∀ t', ∃ c',
      eval g (fuel + 1) t' p [] = .ok (decide (t' % 2 = 0), c') := by
    intro t'
    refine ⟨Cache.insert [] (p, t') (decide (t' % 2 = 0)), ?_⟩
    simp only [eval, Cache.lookup, h1, evalRemotesA, evalSourceA, h2]
    by_cases ht : t' % 2 = 0 <;> simp [ht]
  obtain ⟨c1, hc1⟩ := key t
  obtain ⟨c2, hc2⟩ := key (t + 1)
  refine ⟨c1, c2, hc1, hc2, ?_⟩
  simp only [ne_eq, decide_eq_decide]
  omega

/-- C6 witness: the clock-fed pin reads `true` at tick 4 and `false` at
tick 5. -/
theorem C6_witness :
    ∃ c1 c2, eval gClock 2 4 ⟨1, 0⟩ [] = .ok (decide (4 % 2 = 0), c1) ∧
      eval gClock 2 5 ⟨1, 0⟩ [] = .ok (decide (5 % 2 = 0), c2) ∧
      decide (4 % 2 = 0) ≠ decide (5 % 2 = 0) :=
  C6_clock_parity rfl rfl 1 4

/-- C7 (confirmed): after `eval p t c` resolves to `r`, the memo maps
`(p, t)` to `r`; a subsequent `eval` of the same pin and tick on the
returned cache answers from the memo immediately (any positive fuel
suffices — no sources are recomputed); and no entry at any other tick is
created or changed, so no memo value crosses ticks (each refresh moreover
starts from the empty cache by construction of `Graph.tick`). -/
theorem C7_memoization {g : Graph} {fuel t : Nat} {p : InPinId}
    {c c' : Cache} {v : Bool} (h : eval g fuel t p c = .ok (v, c')) :
    c'.lookup (p, t) = some v ∧
    (∀ f2, eval g (f2 + 1) t p c' = .ok (v, c')) ∧
    (∀ q t2, t2 ≠ t → c'.lookup (q, t2) = c.lookup (q, t2)) := by
  have h1 : c'.lookup (p, t) = some v := by
    cases fuel with
    | zero => exact Except.noConfusion h
    | succ m =>
      unfold eval at h
      cases hcl : c.lookup (p, t) <;> rw [hcl] at h
      case some b =>
        simp only [Except.ok.injEq, Prod.mk.injEq] at h
        rw [← h.2, ← h.1]
        exact hcl
      case none =>
        cases hre : evalRemotesA g (fun p' c' => eval g m t p' c') t
            (g.remotes p) c <;> rw [hre] at h
        case error e => exact Except.noConfusion h
        case ok rc =>
          obtain ⟨rv, c1⟩ := rc
          simp only [Except.ok.injEq, Prod.mk.injEq] at h
          rw [← h.2, ← h.1]
          exact Cache.lookup_insert_self c1 (p, t) rv
  refine ⟨h1, ?_, fun q t2 ht => eval_offTick h q t2 ht⟩
  intro f2
  simp only [eval, h1]

/-- C7 witness: the clock-fed pin memoizes `true` under key `(⟨1,0⟩, 0)`,
re-evaluates from the memo with fuel 1, and leaves keys of other ticks
untouched. -/
theorem C7_witness :
    Cache.lookup (Cache.insert [] (⟨1, 0⟩, 0) true) (⟨1, 0⟩, 0) = some true ∧
    eval gClock 1 0 ⟨1, 0⟩ (Cache.insert [] (⟨1, 0⟩, 0) true) =
      .ok (true, Cache.insert [] (⟨1, 0⟩, 0) true) ∧
    Cache.lookup (Cache.insert [] (⟨1, 0⟩, 0) true) (⟨1, 0⟩, 7) =
      Cache.lookup [] (⟨1, 0⟩, 7) := by
  obtain ⟨h1, h2, h3⟩ := C7_memoization
    (show eval gClock 1 0 ⟨1, 0⟩ [] =
      .ok (true, Cache.insert [] (⟨1, 0⟩, 0) true) by decide)
  exact ⟨h1, h2 0, h3 ⟨1, 0⟩ 7 (by decide)⟩

/-- C8 (confirmed): evaluation results depend only on each node's variant
and the payloads of `Input` and `Output` nodes (`Node.visible`); flipping
the stored boolean of any `Clock`, buffer, `Not`, `And`, `Or`, `Xor`,
`Nor`, `Xnor` or `Nand` node changes nothing — gates are purely functions
of their inputs and the tick. -/
theorem C8_gate_payloads_irrelevant {g1 g2 : Graph}
    (hrem : g1.remotes = g2.remotes)
    (hvis : ∀ n, (g1.nodes n).map Node.visible = (g2.nodes n).map Node.visible)
    (fuel t : Nat) (p : InPinId) (c : Cache) :
    eval g1 fuel t p c = eval g2 fuel t p c := by
  have e1 : ∀ (o : Option Node), o.map Node.key = (o.map Node.visible).map Node.key := by
    intro o
    cases o with
    | none => rfl
    | some nd => simp [Node.key_visible]
  have hkey : ∀ n, (g1.nodes n).map Node.key = (g2.nodes n).map Node.key := by
    intro n
    rw [e1 (g1.nodes n), hvis n, ← e1 (g2.nodes n)]
  exact eval_congr hrem hkey fuel t p c

/-- C8 witness: flipping the `Nand` node's dead payload in the `gNand`
circuit leaves evaluation unchanged. -/
theorem C8_witness : eval gNand 4 0 ⟨3, 0⟩ [] = eval gNandAlt 4 0 ⟨3, 0⟩ [] := by
  have hvis : ∀ n, (gNand.nodes n).map Node.visible =
      (gNandAlt.nodes n).map Node.visible := by
    intro n
    by_cases hn : n = 2
    · subst hn; decide
    · simp only [gNandAlt]
      rw [if_neg hn]
  exact C8_gate_payloads_irrelevant
    (show gNand.remotes = gNandAlt.remotes from rfl) hvis 4 0 ⟨3, 0⟩ []

/-- C9 counterexample: the claim says evaluation aborts whenever an
`Output` node appears among a pin's sources; but `Iterator::any`
short-circuits, so when an earlier source already yielded `true` the
`Output` source is never inspected: here node 1 (an `Output`) is among the
sources of pin ⟨2,0⟩, wired after `Input(true)`, and evaluation returns
`true` instead of aborting. -/
theorem C9_counterexample :
    (1 ∈ gOutSecond.remotes ⟨2, 0⟩ ∧
      gOutSecond.nodes 1 = some (.Output false)) ∧
    evalV gOutSecond 5 0 ⟨2, 0⟩ = .ok true := by
  decide

/-- C9 (corrected): if the fold over a pin's sources actually reaches an
`Output` source (every source wired before it contributed `false` — in
particular when it is the first source), evaluation panics via the
`unreachable!` branch instead of producing a value; and under the
invariant that `Output` nodes are never connection sources (and sources
are live), the panic branch is unreachable: no evaluation ever panics. -/
theorem C9_output_source_panics_when_reached :
    (∀ (g : Graph) (p : InPinId) (pre rest : List Nat) (out : Nat) (b : Bool)
      (t fuel : Nat) (c c1 : Cache),
      g.remotes p = pre ++ out :: rest →
      g.nodes out = some (.Output b) →
      c.lookup (p, t) = none →
      evalRemotesA g (fun p' c' => eval g fuel t p' c') t pre c =
        .ok (false, c1) →
      eval g (fuel + 1) t p c = .error .panic) ∧
    (∀ (g : Graph), Wf g → ∀ fuel t p c,
      eval g fuel t p c ≠ .error .panic) :=
  ⟨fun g p pre rest out b t fuel c c1 h1 h2 h3 h4 =>
    eval_panics_on_reached_output h1 h2 h3 h4,
   fun g hw => eval_no_panic hw⟩

/-- C9 witness: an `Output` as first (sole) source panics; the well-formed
`gNand` circuit never panics. -/
theorem C9_witness :
    eval gOutFirst 2 0 ⟨1, 0⟩ [] = .error .panic ∧
    eval gNand 5 0 ⟨3, 0⟩ [] ≠ .error .panic :=
  ⟨C9_output_source_panics_when_reached.1 gOutFirst ⟨1, 0⟩ [] [] 0 false 0 1
    [] [] rfl rfl rfl rfl,
   C9_output_source_panics_when_reached.2 gNand gNand_wf 5 0 ⟨3, 0⟩ []⟩

/-- C10 (confirmed): an input pin with no incoming connection evaluates to
`false` (the `any` of an empty source list), at every tick. -/
theorem C10_undriven_pin_false {g : Graph} {p : InPinId}
    (h : g.remotes p = []) (fuel t : Nat) :
    eval g (fuel + 1) t p [] = .ok (false, Cache.insert [] (p, t) false) := by
  simp only [eval, Cache.lookup, h, evalRemotesA]

/-- C10 witness: the undriven second pin of the self-loop `Nand` reads
`false` at tick 7. -/
theorem C10_witness :
    eval gSelfLoop 1 7 ⟨0, 1⟩ [] =
      .ok (false, Cache.insert [] (⟨0, 1⟩, 7) false) :=
  C10_undriven_pin_false rfl 0 7

end CodotakuLogic
